import Mathlib

/-!
Verification of the incremental-rebuild engine (`HmrManager`) of the
ts-test-runner repository: the change classifier, the bidirectional
dependency graph, the BFS over reverse dependencies, the rebuild
scheduler, and the bundler retry logic.  Every definition below is a
shallow embedding of the corresponding TypeScript source; filesystem
existence checks and the external glob matcher are passed in as explicit
function parameters.
-/

set_option maxHeartbeats 1000000

/-- Character translation of the path normalizer: backslash to slash. -/
def normChar (c : Char) : Char :=
  if c = '\\' then '/' else c

/-- Path normalizer from `utils`: `p.replace(/\\/g, '/')` — every backslash
becomes a forward slash. -/
def norm (p : String) : String :=
  String.mk (p.data.map normChar)

/-- JS `String.prototype.startsWith`, modelled on the character lists. -/
def startsWithS (s pre : String) : Bool :=
  pre.data.isPrefixOf s.data

/-- JS `Set.prototype.add`: appends the element if it is not yet present. -/
def insertS (l : List String) (x : String) : List String :=
  if x ∈ l then l else l ++ [x]

/-- JS `Set.prototype.delete`: removes the element. -/
def eraseS (l : List String) (x : String) : List String :=
  l.filter (fun y => y ≠ x)

theorem insertS_idem (l : List String) (x : String) :
    insertS (insertS l x) x = insertS l x := by
  unfold insertS
  by_cases h : x ∈ l
  · simp [h]
  · simp [h]

theorem mem_insertS {l : List String} {x y : String} :
    y ∈ insertS l x ↔ y ∈ l ∨ y = x := by
  unfold insertS
  by_cases h : x ∈ l
  · simp only [if_pos h, List.mem_singleton]
    constructor
    · exact Or.inl
    · rintro (hy | rfl) <;> [exact hy; exact h]
  · simp [if_neg h]

theorem insertS_nodup {l : List String} (h : l.Nodup) (x : String) :
    (insertS l x).Nodup := by
  unfold insertS
  by_cases hx : x ∈ l
  · simpa [hx]
  · simp only [if_neg hx]
    simpa [List.nodup_append] using ⟨h, hx⟩

theorem count_insertS_self {l : List String} (h : l.Nodup) (x : String) :
    (insertS l x).count x = 1 := by
  unfold insertS
  by_cases hx : x ∈ l
  · rw [if_pos hx]
    exact List.count_eq_one_of_mem h hx
  · rw [if_neg hx, List.count_append]
    have h0 : l.count x = 0 := List.count_eq_zero.mpr hx
    simp [h0]

/-- Watcher event kinds that reach `determineUpdateStrategy`. -/
inductive ChangeType where
  | add | change | unlink | addDir | unlinkDir
deriving DecidableEq, Repr

/-- The `HmrUpdate['type']` union: `'update' | 'full-reload' | 'test-update'`. -/
inductive UpdateType where
  | update | fullReload | testUpdate
deriving DecidableEq, Repr

/-- The `SourceChangeStrategy` union. -/
inductive SourceChangeStrategy where
  | smart | alwaysReload | neverReload
deriving DecidableEq, Repr

/-- The `'all' | 'selective'` rebuild mode. -/
inductive RebuildMode where
  | all | selective
deriving DecidableEq, Repr

/-- Configuration visible to the HmrManager: the source/test roots from
`ViteJasmineConfig`, the strategy, the critical-pattern list, and the
external `picomatch.isMatch` glob matcher (path, pattern) modelled as an
opaque boolean function parameter. -/
structure HmrConfig where
  testDir : String
  srcDir : String
  sourceChangeStrategy : SourceChangeStrategy
  criticalSourcePatterns : List String
  patMatch : String → String → Bool

/-- The default `criticalSourcePatterns` initializer of the class. -/
def defaultCriticalSourcePatterns : List String :=
  ["**/config/**", "**/setup/**", "**/*.config.*", "**/bootstrap.*",
   "**/main.*", "**/index.*"]

/-- HmrManager.isTestFile: the normalized path starts with `config.testDir`. -/
def isTestFile (cfg : HmrConfig) (filePath : String) : Bool :=
  startsWithS (norm filePath) cfg.testDir

/-- HmrManager.isSourceFile: the normalized path starts with `config.srcDir`. -/
def isSourceFile (cfg : HmrConfig) (filePath : String) : Bool :=
  startsWithS (norm filePath) cfg.srcDir

/-- HmrManager.isCriticalSourceFile: a source file whose normalized path
matches some critical pattern. -/
def isCriticalSourceFile (cfg : HmrConfig) (filePath : String) : Bool :=
  if ¬ isSourceFile cfg filePath then false
  else cfg.criticalSourcePatterns.any (fun pat => cfg.patMatch (norm filePath) pat)

/-- HmrManager.determineUpdateStrategy, translated branch for branch. -/
def determineUpdateStrategy (cfg : HmrConfig) (changedFiles : List String)
    (changeType : ChangeType) : UpdateType × String :=
  let hasSourceChanges := changedFiles.any (fun f => isSourceFile cfg f)
  let hasTestChanges := changedFiles.any (fun f => isTestFile cfg f)
  let hasCriticalChanges := changedFiles.any (fun f => isCriticalSourceFile cfg f)
  if ¬ hasSourceChanges ∧ hasTestChanges then
    (.testUpdate, "Test files changed - incremental update")
  else if changeType = .unlink ∨ changeType = .unlinkDir then
    if hasCriticalChanges then
      (.fullReload, "Critical source file/directory removed")
    else
      (.update, "Source file/directory removed - updating dependents")
  else if changeType = .add ∨ changeType = .addDir then
    (.update, "Source file/directory added - building new modules")
  else if hasSourceChanges then
    if cfg.sourceChangeStrategy = .alwaysReload then
      (.fullReload, "Source changed - always-reload strategy")
    else if cfg.sourceChangeStrategy = .neverReload then
      (.update, "Source changed - never-reload strategy")
    else if hasCriticalChanges then
      (.fullReload, "Critical source file changed")
    else
      (.update, "Source changed - incremental update")
  else
    (.update, "General update")

/-- C5: a changed-file set with at least one file under the test root and no
file under the source root classifies as the test-only update kind
(`'test-update'`), for every event kind, strategy and critical-pattern
configuration. -/
theorem determineUpdateStrategy_testOnly (cfg : HmrConfig)
    (changedFiles : List String) (changeType : ChangeType)
    (hTest : changedFiles.any (fun f => isTestFile cfg f) = true)
    (hSrc : changedFiles.any (fun f => isSourceFile cfg f) = false) :
    (determineUpdateStrategy cfg changedFiles changeType).1 = .testUpdate := by
  unfold determineUpdateStrategy
  simp only [hTest, hSrc]
  simp

/-- Witness for C5 at a concrete configuration and file set. -/
theorem determineUpdateStrategy_testOnly_witness :
    (determineUpdateStrategy
      ⟨"test/", "src/", .alwaysReload, defaultCriticalSourcePatterns,
        fun _ _ => true⟩
      ["test/a.spec.ts"] .change).1 = .testUpdate :=
  determineUpdateStrategy_testOnly _ _ _ (by decide) (by decide)

/-- C6: under the smart strategy, a modification event whose changed set
contains a source file classifies as full-reload exactly when some changed
file is critical, and as incremental update otherwise. -/
theorem determineUpdateStrategy_smart (cfg : HmrConfig)
    (changedFiles : List String)
    (hStrat : cfg.sourceChangeStrategy = .smart)
    (hSrc : changedFiles.any (fun f => isSourceFile cfg f) = true) :
    (determineUpdateStrategy cfg changedFiles .change).1 =
      (if changedFiles.any (fun f => isCriticalSourceFile cfg f) then
        UpdateType.fullReload else UpdateType.update) := by
  unfold determineUpdateStrategy
  simp only [hSrc, hStrat]
  by_cases hCrit : changedFiles.any (fun f => isCriticalSourceFile cfg f)
  · simp [hCrit]
  · simp [hCrit]

/-- Witness for C6: a critical changed source file yields full-reload, a
non-critical one yields an incremental update, in one concrete config whose
matcher is literal string comparison. -/
theorem determineUpdateStrategy_smart_witness :
    (determineUpdateStrategy
      ⟨"test/", "src/", .smart, ["src/main.ts"], fun s pat => s = pat⟩
      ["src/main.ts"] .change).1 = UpdateType.fullReload ∧
    (determineUpdateStrategy
      ⟨"test/", "src/", .smart, ["src/main.ts"], fun s pat => s = pat⟩
      ["src/utils/helpers.ts"] .change).1 = UpdateType.update := by
  constructor
  · have h := determineUpdateStrategy_smart
      ⟨"test/", "src/", .smart, ["src/main.ts"], fun s pat => s = pat⟩
      ["src/main.ts"] rfl (by decide)
    rw [h]; decide
  · have h := determineUpdateStrategy_smart
      ⟨"test/", "src/", .smart, ["src/main.ts"], fun s pat => s = pat⟩
      ["src/utils/helpers.ts"] rfl (by decide)
    rw [h]; decide

/-- One `Map<string, Set<string>>` of the manager, as an insertion-ordered
association list (keys are normalized paths, values are JS Sets). -/
abbrev GraphA := List (String × List String)

/-- JS `Map.prototype.get`. -/
def findG : GraphA → String → Option (List String)
  | [], _ => none
  | (a, b) :: g, k => if a = k then some b else findG g k

/-- JS `Map.prototype.set`: replaces the value at an existing key in place,
otherwise appends a fresh entry. -/
def setG : GraphA → String → List String → GraphA
  | [], k, v => [(k, v)]
  | (a, b) :: g, k, v => if a = k then (k, v) :: g else (a, b) :: setG g k v

/-- JS `Map.prototype.delete`. -/
def eraseG : GraphA → String → GraphA
  | [], _ => []
  | (a, b) :: g, k => if a = k then eraseG g k else (a, b) :: eraseG g k

/-- Membership of edge `a → b` in a graph map: `b` is in the set stored
under key `a` (absent key means no edges). -/
def memEdge (g : GraphA) (a b : String) : Prop :=
  b ∈ (findG g a).getD []

theorem findG_setG (g : GraphA) (k : String) (v : List String) (k' : String) :
    findG (setG g k v) k' = if k' = k then some v else findG g k' := by
  induction g with
  | nil =>
    by_cases h : k' = k
    · simp [setG, findG, h]
    · have h' : ¬ k = k' := fun hh => h hh.symm
      simp [setG, findG, h, h']
  | cons p g ih =>
    obtain ⟨a, b⟩ := p
    by_cases hak : a = k
    · subst hak
      by_cases h : k' = a
      · simp [setG, findG, h]
      · have h' : ¬ a = k' := fun hh => h hh.symm
        simp [setG, findG, h, h']
    · by_cases hak' : a = k'
      · subst hak'
        have h' : ¬ a = k := hak
        simp [setG, findG, hak, h']
      · simp [setG, findG, hak, hak', ih]

theorem findG_eraseG (g : GraphA) (k k' : String) :
    findG (eraseG g k) k' = if k' = k then none else findG g k' := by
  induction g with
  | nil => simp [eraseG, findG]
  | cons p g ih =>
    obtain ⟨a, b⟩ := p
    by_cases hak : a = k
    · subst hak
      by_cases h : k' = a
      · subst h
        simp [eraseG, ih]
      · have h' : ¬ a = k' := fun hh => h hh.symm
        simp [eraseG, findG, h, h', ih]
    · by_cases hak' : a = k'
      · subst hak'
        simp [eraseG, findG, hak]
      · simp [eraseG, findG, hak, hak', ih]

theorem findG_mapErase (g : GraphA) (f k : String) :
    findG (g.map (fun p => (p.1, eraseS p.2 f))) k
      = (findG g k).map (fun v => eraseS v f) := by
  induction g with
  | nil => simp [findG]
  | cons p g ih =>
    obtain ⟨a, b⟩ := p
    by_cases hak : a = k
    · simp [findG, hak]
    · simp [findG, hak, ih]

theorem mem_eraseS {l : List String} {x y : String} :
    y ∈ eraseS l x ↔ y ∈ l ∧ y ≠ x := by
  simp [eraseS, List.mem_filter]

theorem memEdge_setG {g : GraphA} {k : String} {v : List String} {a b : String} :
    memEdge (setG g k v) a b ↔ (if a = k then b ∈ v else memEdge g a b) := by
  unfold memEdge
  rw [findG_setG]
  by_cases h : a = k <;> simp [h]

theorem memEdge_eraseG {g : GraphA} {k a b : String} :
    memEdge (eraseG g k) a b ↔ a ≠ k ∧ memEdge g a b := by
  unfold memEdge
  rw [findG_eraseG]
  by_cases h : a = k <;> simp [h]

theorem memEdge_mapErase {g : GraphA} {f a b : String} :
    memEdge (g.map (fun p => (p.1, eraseS p.2 f))) a b ↔ memEdge g a b ∧ b ≠ f := by
  unfold memEdge
  rw [findG_mapErase]
  cases hfind : findG g a with
  | none => simp
  | some v => simp [mem_eraseS]

/-- The filesystem and the import scanner seen by the manager:
`fsExists` models `fs.existsSync`, and `scanDeps` models the body of the
try-block of `extractDependencies` (regex scan of the file text plus
`resolveImport`), i.e. the resolved import targets of a file's content. -/
structure FileSys where
  fsExists : String → Bool
  scanDeps : String → List String

/-- HmrManager.extractDependencies: returns the empty set when the file
does not exist, otherwise the set of normalized resolved imports. -/
def extractDependencies (fsys : FileSys) (filePath : String) : List String :=
  if fsys.fsExists filePath then
    ((fsys.scanDeps filePath).map norm).foldl insertS []
  else []

/-- The two graphs of the manager: `dependencyGraph` (forward) and
`reverseDependencyGraph`. -/
structure Graphs where
  fwd : GraphA
  rev : GraphA
deriving DecidableEq

/-- The old-reverse-edge removal loop of `buildDependencyGraph`:
`for (const oldDep of oldDeps) reverse.get(oldDep)?.delete(file)`. -/
def removeRevEdges (rev : GraphA) (oldDeps : List String) (file : String) : GraphA :=
  oldDeps.foldl (fun r od =>
    match findG r od with
    | some s => setG r od (eraseS s file)
    | none => r) rev

/-- The new-reverse-edge insertion loop of `buildDependencyGraph`:
initialize the entry to an empty set when absent, then add `file`. -/
def addRevEdges (rev : GraphA) (newDeps : List String) (file : String) : GraphA :=
  newDeps.foldl (fun r nd => setG r nd (insertS ((findG r nd).getD []) file)) rev

/-- The per-file body of `buildDependencyGraph`: drop the reverse edges of
the old forward entry, store the fresh dependency set, record the new
reverse edges. -/
def updateFileDeps (fsys : FileSys) (g : Graphs) (file : String) : Graphs :=
  let nf := norm file
  let rev1 :=
    match findG g.fwd nf with
    | some oldDeps => removeRevEdges g.rev oldDeps nf
    | none => g.rev
  let newDeps := extractDependencies fsys file
  { fwd := setG g.fwd nf newDeps, rev := addRevEdges rev1 newDeps nf }

/-- HmrManager.buildDependencyGraph: non-existent files are filtered out
before processing; each surviving file's graph entry is rebuilt. -/
def buildDependencyGraph (fsys : FileSys) (g : Graphs) (files : List String) : Graphs :=
  (files.filter fsys.fsExists).foldl (updateFileDeps fsys) g

/-- The graph-mutation part of HmrManager.handleFileRemove: delete the
file's forward and reverse entries and scrub the file out of every other
entry's value set. -/
def removeFileFromGraphs (g : Graphs) (filePath : String) : Graphs :=
  let f := norm filePath
  { fwd := (eraseG g.fwd f).map (fun p => (p.1, eraseS p.2 f)),
    rev := (eraseG g.rev f).map (fun p => (p.1, eraseS p.2 f)) }

/-- Bidirectional consistency: `b ∈ forward[a]` iff `a ∈ reverse[b]`. -/
def GraphSym (g : Graphs) : Prop :=
  ∀ a b, memEdge g.fwd a b ↔ memEdge g.rev b a

theorem memEdge_removeRevEdges {rev : GraphA} {ds : List String} {f b a : String} :
    memEdge (removeRevEdges rev ds f) b a ↔
      memEdge rev b a ∧ ¬ (a = f ∧ b ∈ ds) := by
  induction ds generalizing rev with
  | nil => simp [removeRevEdges]
  | cons od rest ih =>
    have hstep : ∀ r : GraphA,
        memEdge (match findG r od with
          | some s => setG r od (eraseS s f)
          | none => r) b a ↔ memEdge r b a ∧ ¬ (b = od ∧ a = f) := by
      intro r
      cases hfind : findG r od with
      | none =>
        by_cases hbo : b = od
        · rw [hbo]
          unfold memEdge
          rw [hfind]
          simp
        · simp [hbo]
      | some s =>
        rw [memEdge_setG]
        by_cases hbo : b = od
        · rw [if_pos hbo, hbo]
          unfold memEdge
          rw [hfind]
          simp [mem_eraseS]
        · simp [hbo]
    have hfold : removeRevEdges rev (od :: rest) f
        = removeRevEdges (match findG rev od with
            | some s => setG rev od (eraseS s f)
            | none => rev) rest f := by
      simp [removeRevEdges, List.foldl_cons]
    rw [hfold, ih, hstep]
    constructor
    · rintro ⟨⟨hm, h1⟩, h2⟩
      refine ⟨hm, ?_⟩
      rintro ⟨rfl, hin⟩
      rcases List.mem_cons.mp hin with h | h
      · exact h1 ⟨h, rfl⟩
      · exact h2 ⟨rfl, h⟩
    · rintro ⟨hm, h⟩
      refine ⟨⟨hm, ?_⟩, ?_⟩
      · rintro ⟨rfl, rfl⟩
        exact h ⟨rfl, List.mem_cons_self _ _⟩
      · rintro ⟨rfl, hin⟩
        exact h ⟨rfl, List.mem_cons_of_mem _ hin⟩

theorem memEdge_addRevEdges {rev : GraphA} {ds : List String} {f b a : String} :
    memEdge (addRevEdges rev ds f) b a ↔
      memEdge rev b a ∨ (a = f ∧ b ∈ ds) := by
  induction ds generalizing rev with
  | nil => simp [addRevEdges]
  | cons nd rest ih =>
    have hstep : ∀ r : GraphA,
        memEdge (setG r nd (insertS ((findG r nd).getD []) f)) b a ↔
          memEdge r b a ∨ (b = nd ∧ a = f) := by
      intro r
      rw [memEdge_setG]
      by_cases hbo : b = nd
      · subst hbo
        simp [memEdge, mem_insertS]
      · simp [hbo]
    have hfold : addRevEdges rev (nd :: rest) f
        = addRevEdges (setG rev nd (insertS ((findG rev nd).getD []) f)) rest f := by
      simp [addRevEdges, List.foldl_cons]
    rw [hfold, ih, hstep]
    constructor
    · rintro ((hm | ⟨rfl, rfl⟩) | ⟨rfl, hin⟩)
      · exact Or.inl hm
      · exact Or.inr ⟨rfl, List.mem_cons_self _ _⟩
      · exact Or.inr ⟨rfl, List.mem_cons_of_mem _ hin⟩
    · rintro (hm | ⟨rfl, hin⟩)
      · exact Or.inl (Or.inl hm)
      · rcases List.mem_cons.mp hin with h | h
        · exact Or.inl (Or.inr ⟨h, rfl⟩)
        · exact Or.inr ⟨rfl, h⟩

theorem graphSym_updateFileDeps {g : Graphs} (fsys : FileSys) (file : String)
    (h : GraphSym g) : GraphSym (updateFileDeps fsys g file) := by
  intro a b
  unfold updateFileDeps
  simp only
  rw [memEdge_setG, memEdge_addRevEdges]
  by_cases hanf : a = norm file
  · rw [if_pos hanf]
    cases hfind : findG g.fwd (norm file) with
    | none =>
      have hrev : ¬ memEdge g.rev b (norm file) := by
        intro hm
        have := (h (norm file) b).mpr hm
        simp [memEdge, hfind] at this
      constructor
      · intro hin
        exact Or.inr ⟨hanf, hin⟩
      · rintro (hm | ⟨_, hin⟩)
        · exact absurd (hanf ▸ hm) hrev
        · exact hin
    | some oldDeps =>
      rw [memEdge_removeRevEdges]
      constructor
      · intro hin
        exact Or.inr ⟨hanf, hin⟩
      · rintro (⟨hm, hno⟩ | ⟨_, hin⟩)
        · exfalso
          have hm' : memEdge g.rev b (norm file) := hanf ▸ hm
          have := (h (norm file) b).mpr hm'
          simp only [memEdge, hfind, Option.getD_some] at this
          exact hno ⟨hanf, this⟩
        · exact hin
  · simp only [if_neg hanf]
    cases hfind : findG g.fwd (norm file) with
    | none =>
      simp [h a b, hanf]
    | some oldDeps =>
      rw [memEdge_removeRevEdges]
      simp [h a b, hanf]

theorem graphSym_removeFileFromGraphs {g : Graphs} (filePath : String)
    (h : GraphSym g) : GraphSym (removeFileFromGraphs g filePath) := by
  intro a b
  unfold removeFileFromGraphs
  simp only
  rw [memEdge_mapErase, memEdge_eraseG, memEdge_mapErase, memEdge_eraseG]
  constructor
  · rintro ⟨⟨ha, hm⟩, hb⟩
    exact ⟨⟨hb, (h a b).mp hm⟩, ha⟩
  · rintro ⟨⟨hb, hm⟩, ha⟩
    exact ⟨⟨ha, (h a b).mpr hm⟩, hb⟩

theorem graphSym_buildDependencyGraph {g : Graphs} (fsys : FileSys)
    (files : List String) (h : GraphSym g) :
    GraphSym (buildDependencyGraph fsys g files) := by
  unfold buildDependencyGraph
  generalize files.filter fsys.fsExists = fl
  induction fl generalizing g with
  | nil => exact h
  | cons f rest ih =>
    rw [List.foldl_cons]
    exact ih (graphSym_updateFileDeps fsys f h)

/-- A graph-maintenance operation: a `buildDependencyGraph` pass (with the
filesystem contents current at that moment) or a file removal. -/
inductive GraphOp where
  | update (fsys : FileSys) (files : List String)
  | remove (filePath : String)

/-- Apply one operation to the pair of graphs. -/
def applyGraphOp (g : Graphs) : GraphOp → Graphs
  | .update fsys files => buildDependencyGraph fsys g files
  | .remove filePath => removeFileFromGraphs g filePath

/-- Apply a sequence of operations starting from the empty graphs, as the
manager does over its lifetime. -/
def applyGraphOps (ops : List GraphOp) : Graphs :=
  ops.foldl applyGraphOp ⟨[], []⟩

/-- C2: after any sequence of `buildDependencyGraph` and
`handleFileRemove` graph operations starting from empty graphs, `b` is in
the forward dependency set of `a` exactly when `a` is in the reverse
dependency set of `b`. -/
theorem graph_symmetry (ops : List GraphOp) (a b : String) :
    memEdge (applyGraphOps ops).fwd a b ↔ memEdge (applyGraphOps ops).rev b a := by
  suffices hs : GraphSym (applyGraphOps ops) from hs a b
  unfold applyGraphOps
  have hbase : GraphSym ⟨[], []⟩ := by
    intro a b
    simp [memEdge, findG]
  generalize hg : (⟨[], []⟩ : Graphs) = g0
  rw [hg] at hbase
  clear hg
  induction ops generalizing g0 with
  | nil => exact hbase
  | cons op rest ih =>
    rw [List.foldl_cons]
    apply ih
    cases op with
    | update fsys files => exact graphSym_buildDependencyGraph fsys files hbase
    | remove filePath => exact graphSym_removeFileFromGraphs filePath hbase

/-- A filesystem on which no file exists. -/
def fsysEmpty : FileSys := ⟨fun _ => false, fun _ => []⟩

/-- A concrete graph pair recording that `f` imports `d`. -/
def graphsFD : Graphs := ⟨[("f", ["d"])], [("d", ["f"])]⟩

/-- C3 counterexample: for the non-existent file `f`, `extractDependencies`
does return the empty set, but running `buildDependencyGraph` on `f` does
NOT drop the already-recorded forward entry of `f` — the entry survives
untouched, because `buildDependencyGraph` filters non-existent files out
before its loop ever reaches them. -/
theorem buildDependencyGraph_missing_keeps_entry :
    extractDependencies fsysEmpty "f" = [] ∧
    findG (buildDependencyGraph fsysEmpty graphsFD ["f"]).fwd "f" = some ["d"] := by
  constructor
  · rfl
  · rfl

/-- C3 amended: dependency resolution for a file missing at scan time is
not an error — `extractDependencies` returns the empty set — and
`buildDependencyGraph` skips such a file entirely, leaving the graphs (and
in particular any already-recorded forward entry for it) unchanged. -/
theorem buildDependencyGraph_skips_missing (fsys : FileSys) (g : Graphs)
    (f : String) (h : fsys.fsExists f = false) :
    extractDependencies fsys f = [] ∧ buildDependencyGraph fsys g [f] = g := by
  constructor
  · simp [extractDependencies, h]
  · simp [buildDependencyGraph, List.filter, h]

/-- Witness for the amended C3 at a concrete filesystem, graph and file. -/
theorem buildDependencyGraph_skips_missing_witness :
    extractDependencies fsysEmpty "f" = [] ∧
    buildDependencyGraph fsysEmpty graphsFD ["f"] = graphsFD :=
  buildDependencyGraph_skips_missing fsysEmpty graphsFD "f" rfl

/-- Outcome classes reported by the external bundler (`vite build`):
success, the `UNRESOLVED_ENTRY` error code, or any other thrown error. -/
inductive BuildResult where
  | ok | unresolvedEntry | otherError
deriving DecidableEq, Repr

/-- How the try/catch around the bundler invocation of one drain cycle
ends: build succeeded, cycle skipped via `continue`, or the error
propagated out of the cycle. -/
inductive CycleEnd where
  | completed | skippedCycle | raised
deriving DecidableEq, Repr

/-- Trace of one cycle's bundler phase: the entry lists passed to each
bundler invocation in order, and how the phase ended. -/
structure BuildTrace where
  calls : List (List String × List String)
  outcome : CycleEnd
deriving DecidableEq, Repr

/-- The bundler-invocation phase of `rebuildAll` (the try/catch around
`build(viteConfig)`): on `UNRESOLVED_ENTRY` the entry lists are re-filtered
for on-disk existence and the build is retried once (or the cycle is
skipped when nothing survives); any other error — including a failing
retry — propagates.  `fsx` is `fs.existsSync` at retry time and
`respond n` is the outcome of the `n`-th bundler invocation. -/
def runBuildPhase (fsx : String → Bool) (respond : Nat → BuildResult)
    (validSourceFiles validTestFiles : List String) : BuildTrace :=
  match respond 0 with
  | .ok => ⟨[(validSourceFiles, validTestFiles)], .completed⟩
  | .otherError => ⟨[(validSourceFiles, validTestFiles)], .raised⟩
  | .unresolvedEntry =>
    let finalSourceFiles := validSourceFiles.filter fsx
    let finalTestFiles := validTestFiles.filter fsx
    if finalSourceFiles.isEmpty ∧ finalTestFiles.isEmpty then
      ⟨[(validSourceFiles, validTestFiles)], .skippedCycle⟩
    else
      match respond 1 with
      | .ok => ⟨[(validSourceFiles, validTestFiles),
                 (finalSourceFiles, finalTestFiles)], .completed⟩
      | _ => ⟨[(validSourceFiles, validTestFiles),
               (finalSourceFiles, finalTestFiles)], .raised⟩

/-- C7: an unresolved-entry bundler failure is retried exactly once with
the entry lists re-filtered for existence (or the cycle is skipped when no
entries survive the re-filter); any other failure class is not retried and
propagates as the cycle's error.  In particular the bundler is never
invoked more than twice in a cycle. -/
theorem runBuildPhase_retry (fsx : String → Bool) (respond : Nat → BuildResult)
    (vs vt : List String) :
    (runBuildPhase fsx respond vs vt).calls.length ≤ 2 ∧
    (respond 0 = .ok →
      (runBuildPhase fsx respond vs vt).calls = [(vs, vt)] ∧
      (runBuildPhase fsx respond vs vt).outcome = .completed) ∧
    (respond 0 = .otherError →
      (runBuildPhase fsx respond vs vt).calls = [(vs, vt)] ∧
      (runBuildPhase fsx respond vs vt).outcome = .raised) ∧
    (respond 0 = .unresolvedEntry → vs.filter fsx = [] → vt.filter fsx = [] →
      (runBuildPhase fsx respond vs vt).calls = [(vs, vt)] ∧
      (runBuildPhase fsx respond vs vt).outcome = .skippedCycle) ∧
    (respond 0 = .unresolvedEntry → ¬ (vs.filter fsx = [] ∧ vt.filter fsx = []) →
      (runBuildPhase fsx respond vs vt).calls
        = [(vs, vt), (vs.filter fsx, vt.filter fsx)] ∧
      ((runBuildPhase fsx respond vs vt).outcome = .completed ↔ respond 1 = .ok)) := by
  refine ⟨?_, ?_, ?_, ?_, ?_⟩
  · unfold runBuildPhase
    cases respond 0 with
    | ok => simp
    | otherError => simp
    | unresolvedEntry =>
      dsimp only
      split
      · simp
      · cases respond 1 <;> simp
  · intro h0
    unfold runBuildPhase
    rw [h0]
    exact ⟨rfl, rfl⟩
  · intro h0
    unfold runBuildPhase
    rw [h0]
    exact ⟨rfl, rfl⟩
  · intro h0 hvs hvt
    unfold runBuildPhase
    rw [h0]
    simp [hvs, hvt]
  · intro h0 hne
    unfold runBuildPhase
    rw [h0]
    have hcond : ¬ ((vs.filter fsx).isEmpty ∧ (vt.filter fsx).isEmpty) := by
      simpa [List.isEmpty_iff] using hne
    simp only [if_neg hcond]
    cases h1 : respond 1 <;> simp

/-- Witness for C7: a first invocation failing with `UNRESOLVED_ENTRY` and
a file deleted during the build leads to exactly one retry with the
re-filtered entry lists, and the cycle completes when the retry succeeds. -/
theorem runBuildPhase_retry_witness :
    (runBuildPhase (fun p => p != "gone")
        (fun n => if n = 0 then BuildResult.unresolvedEntry else .ok)
        ["src/a.ts", "gone"] []).calls
      = [(["src/a.ts", "gone"], []), (["src/a.ts"], [])] ∧
    (runBuildPhase (fun p => p != "gone")
        (fun n => if n = 0 then BuildResult.unresolvedEntry else .ok)
        ["src/a.ts", "gone"] []).outcome = CycleEnd.completed := by
  have h := (runBuildPhase_retry (fun p => p != "gone")
      (fun n => if n = 0 then BuildResult.unresolvedEntry else .ok)
      ["src/a.ts", "gone"] []).2.2.2.2 (by decide) (by decide)
  refine ⟨?_, h.2.mpr (by decide)⟩
  rw [h.1]
  decide

/-- Scheduler-relevant state of the manager: the `isRebuilding` flag, the
two queues, plus instrumentation — `rebuildTasks` counts live `rebuildAll`
invocations (spawned at line `this.rebuildPromise = this.rebuildAll()...`,
retired in the `finally`), `building` counts bundler invocations currently
awaited, and `errorEvents` counts emissions of `hmr:error`. -/
structure SchedState where
  isRebuilding : Bool
  rebuildQueue : List String
  directChanges : List String
  rebuildTasks : Nat
  building : Nat
  errorEvents : Nat
deriving DecidableEq, Repr

/-- The first synchronous segment of `queueRebuild`: normalize, return
early when a non-unlink change names a non-existent file, otherwise add
the path to `directChanges` and `rebuildQueue`. -/
def queueRebuildSync (fsx : String → Bool) (changeType : ChangeType)
    (s : SchedState) (filePath : String) : SchedState :=
  let normalized := norm filePath
  if changeType ≠ .unlink ∧ fsx normalized = false then s
  else
    { s with directChanges := insertS s.directChanges normalized,
             rebuildQueue := insertS s.rebuildQueue normalized }

/-- Observable labels of scheduler transitions. -/
inductive SchedLabel where
  | enqueue (filePath : String)
  | start
  | drain (batch direct : List String)
  | buildOk
  | buildError
  | finish
deriving DecidableEq, Repr

/-- Interleaving semantics of `queueRebuild`/`rebuildAll`.  Each
constructor is one synchronous segment of the JS code between suspension
points (single-threaded event loop):
`enqueue` — the head of `queueRebuild`;
`start` — the `if (!this.isRebuilding)` guard that flips the flag and
spawns `rebuildAll` (atomic with the check: no await in between);
`drain` — one loop iteration of `rebuildAll`: snapshot both queues, clear
them, and — when some snapshotted file still exists — invoke the bundler
(`building` goes up); when every snapshotted file is gone the cycle is
skipped (`continue`);
`buildOk`/`buildError` — the awaited bundler invocation returns or throws;
a throw aborts the loop, emits `hmr:error` twice (once in `rebuildAll`'s
catch, once in the `.catch` attached at spawn) and runs the `finally`
which clears `isRebuilding`;
`finish` — the loop exits on an empty queue and the `finally` clears
`isRebuilding`. -/
inductive SchedStep : SchedState → SchedLabel → SchedState → Prop where
  | enqueue (s : SchedState) (fsx : String → Bool) (ct : ChangeType) (p : String) :
      SchedStep s (.enqueue p) (queueRebuildSync fsx ct s p)
  | start (s : SchedState) (h : s.isRebuilding = false) :
      SchedStep s .start
        { s with isRebuilding := true, rebuildTasks := s.rebuildTasks + 1 }
  | drainBuild (s : SchedState) (fsx : String → Bool)
      (htask : s.building < s.rebuildTasks)
      (hne : s.rebuildQueue ≠ [])
      (hsurv : s.rebuildQueue.filter fsx ≠ []) :
      SchedStep s (.drain s.rebuildQueue s.directChanges)
        { s with rebuildQueue := [], directChanges := [],
                 building := s.building + 1 }
  | drainSkip (s : SchedState) (fsx : String → Bool)
      (htask : s.building < s.rebuildTasks)
      (hne : s.rebuildQueue ≠ [])
      (hsurv : s.rebuildQueue.filter fsx = []) :
      SchedStep s (.drain s.rebuildQueue s.directChanges)
        { s with rebuildQueue := [], directChanges := [] }
  | buildOk (s : SchedState) (h : 1 ≤ s.building) :
      SchedStep s .buildOk { s with building := s.building - 1 }
  | buildError (s : SchedState) (h : 1 ≤ s.building) :
      SchedStep s .buildError
        { s with building := s.building - 1,
                 rebuildTasks := s.rebuildTasks - 1,
                 isRebuilding := false,
                 errorEvents := s.errorEvents + 2 }
  | finish (s : SchedState) (htask : s.building < s.rebuildTasks)
      (hq : s.rebuildQueue = []) :
      SchedStep s .finish
        { s with rebuildTasks := s.rebuildTasks - 1, isRebuilding := false }

/-- The manager's initial scheduler state. -/
def schedInit : SchedState := ⟨false, [], [], 0, 0, 0⟩

/-- States reachable from the initial state. -/
inductive SchedReachable : SchedState → Prop where
  | init : SchedReachable schedInit
  | step {s : SchedState} {l : SchedLabel} {s' : SchedState} :
      SchedReachable s → SchedStep s l s' → SchedReachable s'

/-- Inductive scheduler invariant: `isRebuilding` mirrors the presence of
the unique live `rebuildAll` task, at most that task can be awaiting the
bundler, and the rebuild queue is duplicate-free. -/
def SchedInv (s : SchedState) : Prop :=
  s.rebuildTasks = (if s.isRebuilding then 1 else 0) ∧
  s.building ≤ s.rebuildTasks ∧
  s.rebuildQueue.Nodup

theorem schedInv_step {s : SchedState} {l : SchedLabel} {s' : SchedState}
    (h : SchedInv s) (hs : SchedStep s l s') : SchedInv s' := by
  obtain ⟨h1, h2, h3⟩ := h
  cases hs with
  | enqueue fsx ct p =>
    unfold queueRebuildSync
    by_cases hg : ct ≠ ChangeType.unlink ∧ fsx (norm p) = false
    · simpa [hg] using ⟨h1, h2, h3⟩
    · simp only [if_neg hg]
      exact ⟨h1, h2, insertS_nodup h3 _⟩
  | start h =>
    rw [h] at h1
    simp only [Bool.false_eq_true, if_false] at h1
    refine ⟨?_, ?_, h3⟩
    · simp [h1]
    · simp
      omega
  | drainBuild fsx htask hne hsurv =>
    refine ⟨h1, ?_, List.nodup_nil⟩
    simp
    omega
  | drainSkip fsx htask hne hsurv =>
    exact ⟨h1, h2, List.nodup_nil⟩
  | buildOk h =>
    refine ⟨h1, ?_, h3⟩
    simp
    omega
  | buildError h =>
    have hreb : s.isRebuilding = true := by
      cases hb : s.isRebuilding
      · rw [hb] at h1
        simp at h1
        omega
      · rfl
    rw [hreb] at h1
    simp at h1
    refine ⟨?_, ?_, h3⟩
    · simp
      omega
    · simp
      omega
  | finish htask hq =>
    have hreb : s.isRebuilding = true := by
      cases hb : s.isRebuilding
      · rw [hb] at h1
        simp at h1
        omega
      · rfl
    rw [hreb] at h1
    simp at h1
    refine ⟨?_, ?_, h3⟩
    · simp
      omega
    · simp
      omega

theorem schedInv_reachable {s : SchedState} (h : SchedReachable s) : SchedInv s := by
  induction h with
  | init => exact ⟨rfl, Nat.le_refl _, List.nodup_nil⟩
  | step _ hs ih => exact schedInv_step ih hs

theorem filter_fun_true (l : List String) : l.filter (fun _ => true) = l := by
  induction l with
  | nil => rfl
  | cons a l ih => simp [List.filter, ih]

/-- C1: (i) in every reachable scheduler state at most one `rebuildAll`
task is alive and at most one bundler invocation is in flight — a
`queueRebuild` call arriving during a rebuild can only take the `enqueue`
transition, which adds the path to the queue, since `start` is guarded by
`isRebuilding = false`; (ii) a path ever leaves the cumulative rebuild
queue only through a `drain` transition whose snapshotted batch contains
it, so no queued change is silently dropped by the scheduler; (iii) the
scheduler never gets stuck with a non-empty queue: some transition towards
a drain (a drain itself, a task start, or the completion of the in-flight
build) is always enabled. -/
theorem scheduler_single_flight :
    (∀ s : SchedState, SchedReachable s → s.building ≤ 1 ∧ s.rebuildTasks ≤ 1) ∧
    (∀ (s : SchedState) (l : SchedLabel) (s' : SchedState) (p : String),
      SchedStep s l s' → p ∈ s.rebuildQueue → p ∉ s'.rebuildQueue →
      ∃ batch direct, l = SchedLabel.drain batch direct ∧ p ∈ batch) ∧
    (∀ s : SchedState, SchedReachable s → s.rebuildQueue ≠ [] →
      ∃ (l : SchedLabel) (s' : SchedState), SchedStep s l s' ∧
        ((∃ batch direct, l = SchedLabel.drain batch direct) ∨
          l = SchedLabel.start ∨ l = SchedLabel.buildOk)) := by
  refine ⟨?_, ?_, ?_⟩
  · intro s hr
    obtain ⟨h1, h2, h3⟩ := schedInv_reachable hr
    have ht : s.rebuildTasks ≤ 1 := by
      cases hb : s.isRebuilding <;> rw [hb] at h1 <;> simp at h1 <;> omega
    exact ⟨le_trans h2 ht, ht⟩
  · intro s l s' p hs hin hout
    cases hs with
    | enqueue fsx ct p' =>
      exfalso
      apply hout
      unfold queueRebuildSync
      by_cases hg : ct ≠ ChangeType.unlink ∧ fsx (norm p') = false
      · simpa [hg] using hin
      · simp only [if_neg hg]
        exact mem_insertS.mpr (Or.inl hin)
    | start h => exact absurd hin hout
    | drainBuild fsx htask hne hsurv =>
      exact ⟨s.rebuildQueue, s.directChanges, rfl, hin⟩
    | drainSkip fsx htask hne hsurv =>
      exact ⟨s.rebuildQueue, s.directChanges, rfl, hin⟩
    | buildOk h => exact absurd hin hout
    | buildError h => exact absurd hin hout
    | finish htask hq =>
      rw [hq] at hin
      simp at hin
  · intro s hr hne
    obtain ⟨h1, h2, h3⟩ := schedInv_reachable hr
    cases hb : s.isRebuilding with
    | false =>
      exact ⟨SchedLabel.start, _, SchedStep.start s hb, Or.inr (Or.inl rfl)⟩
    | true =>
      have ht : s.rebuildTasks = 1 := by
        rw [hb] at h1
        simpa using h1
      by_cases hbuild : s.building = 0
      · refine ⟨_, _, SchedStep.drainBuild s (fun _ => true) ?_ hne ?_,
          Or.inl ⟨s.rebuildQueue, s.directChanges, rfl⟩⟩
        · omega
        · rw [filter_fun_true]
          exact hne
      · have hb1 : 1 ≤ s.building := Nat.one_le_iff_ne_zero.mpr hbuild
        exact ⟨SchedLabel.buildOk, _, SchedStep.buildOk s hb1, Or.inr (Or.inr rfl)⟩

/-- Witness for C1: its reachability-quantified parts applied to the
initial state. -/
theorem scheduler_single_flight_witness :
    schedInit.building ≤ 1 ∧ schedInit.rebuildTasks ≤ 1 :=
  scheduler_single_flight.1 schedInit SchedReachable.init

/-- C4: when the bundler invocation throws, the failing transition emits
the error event (twice: once from `rebuildAll`'s catch, once from the
`.catch` attached at spawn), returns the scheduler to Idle
(`isRebuilding = false`, no live task, no in-flight build), leaves the
rebuild queue untouched, and from the resulting state a fresh `start`
followed by a `drain` of the remaining queue is enabled — the watch loop
continues with the next batch instead of halting. -/
theorem scheduler_error_recovery (s s' : SchedState)
    (hr : SchedReachable s) (hs : SchedStep s SchedLabel.buildError s') :
    s'.errorEvents = s.errorEvents + 2 ∧
    s'.isRebuilding = false ∧
    s'.rebuildTasks = 0 ∧
    s'.building = 0 ∧
    s'.rebuildQueue = s.rebuildQueue ∧
    (s'.rebuildQueue ≠ [] →
      ∃ s'' s''' : SchedState, SchedStep s' SchedLabel.start s'' ∧
        SchedStep s'' (SchedLabel.drain s'.rebuildQueue s'.directChanges) s''') := by
  obtain ⟨h1, h2, h3⟩ := schedInv_reachable hr
  cases hs with
  | buildError h =>
    have hreb : s.isRebuilding = true := by
      cases hbb : s.isRebuilding
      · rw [hbb] at h1
        simp at h1
        omega
      · rfl
    rw [hreb] at h1
    simp at h1
    refine ⟨rfl, rfl, by simp [h1], by simp; omega, rfl, ?_⟩
    intro hq
    refine ⟨_, _, SchedStep.start _ rfl,
      SchedStep.drainBuild _ (fun _ => true) ?_ ?_ ?_⟩
    · show s.building - 1 < (s.rebuildTasks - 1) + 1
      omega
    · exact hq
    · show List.filter (fun _ => true) s.rebuildQueue ≠ []
      rw [filter_fun_true]
      exact hq

/-- Witness for C4: a concrete run — enqueue, start, drain, failing build —
reaching a state where the failing transition exhibits the recovery
properties. -/
theorem scheduler_error_recovery_witness :
    ∃ s s' : SchedState, SchedReachable s ∧ SchedStep s SchedLabel.buildError s' ∧
      s'.isRebuilding = false ∧ s'.errorEvents = s.errorEvents + 2 := by
  have r0 : SchedReachable schedInit := SchedReachable.init
  have r1 : SchedReachable (queueRebuildSync (fun _ => true) ChangeType.change schedInit "a") :=
    SchedReachable.step r0 (SchedStep.enqueue schedInit (fun _ => true) ChangeType.change "a")
  have e1 : queueRebuildSync (fun _ => true) ChangeType.change schedInit "a"
      = ⟨false, ["a"], ["a"], 0, 0, 0⟩ := by decide
  rw [e1] at r1
  have st2 : SchedStep ⟨false, ["a"], ["a"], 0, 0, 0⟩ SchedLabel.start
      ⟨true, ["a"], ["a"], 1, 0, 0⟩ :=
    SchedStep.start _ rfl
  have r2 : SchedReachable ⟨true, ["a"], ["a"], 1, 0, 0⟩ := SchedReachable.step r1 st2
  have st3 : SchedStep ⟨true, ["a"], ["a"], 1, 0, 0⟩
      (SchedLabel.drain ["a"] ["a"]) ⟨true, [], [], 1, 1, 0⟩ :=
    SchedStep.drainBuild _ (fun _ => true) (by decide) (by decide) (by decide)
  have r3 : SchedReachable ⟨true, [], [], 1, 1, 0⟩ := SchedReachable.step r2 st3
  have st4 : SchedStep ⟨true, [], [], 1, 1, 0⟩ SchedLabel.buildError
      ⟨false, [], [], 0, 0, 2⟩ :=
    SchedStep.buildError _ (by decide)
  exact ⟨_, _, r3, st4, (scheduler_error_recovery _ _ r3 st4).2.1,
    (scheduler_error_recovery _ _ r3 st4).1⟩

/-- C8: re-queuing the same (normalized) path before the scheduler drains
is a no-op — two `queueRebuild` head segments with the same path give the
same state as one — and after queuing the path it occurs exactly once in
the cumulative rebuild queue, so the ensuing drain cycle carries it once. -/
theorem queueRebuild_idempotent (s : SchedState) (fsx : String → Bool)
    (ct : ChangeType) (p : String) (hr : SchedReachable s)
    (hex : fsx (norm p) = true) :
    queueRebuildSync fsx ct (queueRebuildSync fsx ct s p) p
      = queueRebuildSync fsx ct s p ∧
    ((queueRebuildSync fsx ct s p).rebuildQueue).count (norm p) = 1 := by
  have hng : ¬ (ct ≠ ChangeType.unlink ∧ fsx (norm p) = false) := by
    rintro ⟨-, hf⟩
    rw [hex] at hf
    exact absurd hf (by decide)
  obtain ⟨-, -, h3⟩ := schedInv_reachable hr
  constructor
  · unfold queueRebuildSync
    simp only [if_neg hng]
    simp [insertS_idem]
  · unfold queueRebuildSync
    simp only [if_neg hng]
    show (insertS s.rebuildQueue (norm p)).count (norm p) = 1
    exact count_insertS_self h3 (norm p)

/-- Witness for C8 at the initial state and a concrete path. -/
theorem queueRebuild_idempotent_witness :
    queueRebuildSync (fun _ => true) ChangeType.change
        (queueRebuildSync (fun _ => true) ChangeType.change schedInit "a") "a"
      = queueRebuildSync (fun _ => true) ChangeType.change schedInit "a" ∧
    ((queueRebuildSync (fun _ => true) ChangeType.change
        schedInit "a").rebuildQueue).count (norm "a") = 1 :=
  queueRebuild_idempotent schedInit (fun _ => true) ChangeType.change "a"
    SchedReachable.init rfl

/-- Dependents stored under a key (`reverseDependencyGraph.get(current)`,
absent entry meaning none). -/
def depsOf (g : GraphA) (c : String) : List String :=
  (findG g c).getD []

/-- All keys and values occurring in a graph — a superset of every node
the BFS can ever enqueue. -/
def nodesOf (g : GraphA) : List String :=
  g.foldr (fun p acc => p.1 :: p.2 ++ acc) []

/-- Total number of stored dependent-set elements. -/
def totalValLen (g : GraphA) : Nat :=
  g.foldr (fun p acc => p.2.length + acc) 0

theorem nodesOf_cons (a : String) (b : List String) (g : GraphA) :
    nodesOf ((a, b) :: g) = a :: b ++ nodesOf g := rfl

theorem depsOf_subset_nodesOf {g : GraphA} {c x : String}
    (h : x ∈ depsOf g c) : x ∈ nodesOf g := by
  induction g with
  | nil => simp [depsOf, findG] at h
  | cons p g ih =>
    obtain ⟨a, b⟩ := p
    rw [nodesOf_cons]
    by_cases hac : a = c
    · simp only [depsOf, findG, if_pos hac, Option.getD_some] at h
      simp [h]
    · simp only [depsOf, findG, if_neg hac] at h
      have := ih h
      simp [this]

theorem depsOf_length_le (g : GraphA) (c : String) :
    (depsOf g c).length ≤ totalValLen g := by
  induction g with
  | nil => simp [depsOf, findG, totalValLen]
  | cons p g ih =>
    obtain ⟨a, b⟩ := p
    by_cases hac : a = c
    · simp only [depsOf, findG, if_pos hac, Option.getD_some, totalValLen,
        List.foldr_cons]
      omega
    · simp only [depsOf, findG, if_neg hac, totalValLen, List.foldr_cons]
      have := ih
      simp only [depsOf, totalValLen] at this
      omega

/-- Number of elements of `u` not yet visited. -/
def unvisitedCount (u v : List String) : Nat :=
  (u.filter (fun x => decide (x ∉ v))).length

theorem unvisitedCount_nil (u : List String) : unvisitedCount u [] = u.length := by
  unfold unvisitedCount
  induction u with
  | nil => rfl
  | cons x u ih => simp [List.filter_cons, ih]

theorem unvisitedCount_cons_le (u : List String) (c : String) (v : List String) :
    unvisitedCount u (c :: v) ≤ unvisitedCount u v := by
  unfold unvisitedCount
  induction u with
  | nil => exact Nat.le_refl _
  | cons x u ih =>
    rw [List.filter_cons, List.filter_cons]
    by_cases hx : x ∈ v
    · have h1 : ¬ x = c → x ∈ v := fun _ => hx
      rw [if_neg (by simpa using h1), if_neg (by simpa using hx)]
      exact ih
    · by_cases hxc : x = c
      · have h1 : ¬ x = c → x ∈ v := fun hne => absurd hxc hne
        rw [if_neg (by simpa using h1), if_pos (by simpa using hx)]
        simp only [List.length_cons]
        omega
      · have h1 : x ∉ c :: v := by simp [hxc, hx]
        rw [if_pos (by simpa using h1), if_pos (by simpa using hx)]
        simp only [List.length_cons]
        omega

theorem unvisitedCount_cons_lt {u : List String} {c : String} {v : List String}
    (hu : c ∈ u) (hv : c ∉ v) :
    unvisitedCount u (c :: v) < unvisitedCount u v := by
  induction u with
  | nil => simp at hu
  | cons x u ih =>
    unfold unvisitedCount
    rw [List.filter_cons, List.filter_cons]
    by_cases hxc : x = c
    · have h1 : ¬ x = c → x ∈ v := fun hne => absurd hxc hne
      have h2 : x ∉ v := hxc ▸ hv
      rw [if_neg (by simpa using h1), if_pos (by simpa using h2)]
      simp only [List.length_cons]
      have := unvisitedCount_cons_le u c v
      simp only [unvisitedCount] at this
      omega
    · have hcu : c ∈ u := by
        rcases List.mem_cons.mp hu with h | h
        · exact absurd h.symm hxc
        · exact h
      have hrec := ih hcu
      simp only [unvisitedCount] at hrec
      by_cases hx : x ∈ v
      · have h1 : ¬ x = c → x ∈ v := fun _ => hx
        rw [if_neg (by simpa using h1), if_neg (by simpa using hx)]
        exact hrec
      · have h1 : x ∉ c :: v := by simp [hxc, hx]
        rw [if_pos (by simpa using h1), if_pos (by simpa using hx)]
        simp only [List.length_cons]
        omega

/-- One full run of the `while (queue.length)` loop of
`getFilesToRebuild` in selective mode, with an explicit fuel parameter
standing for the loop's (provably sufficient) iteration bound: pop the
head, skip it when already visited, otherwise mark it visited, add it to
the rebuild set when it exists on disk, and push its existing dependents
from the reverse dependency graph.  Returns the visited set and the
rebuild set. -/
def bfsAux (fsx : String → Bool) (g : GraphA) :
    Nat → List String → List String → List String → List String × List String
  | 0, _, visited, acc => (visited, acc)
  | _ + 1, [], visited, acc => (visited, acc)
  | fuel + 1, current :: queue, visited, acc =>
    if current ∈ visited then
      bfsAux fsx g fuel queue visited acc
    else
      bfsAux fsx g fuel (queue ++ (depsOf g current).filter fsx)
        (current :: visited)
        (if fsx current then insertS acc current else acc)

/-- Iteration bound sufficient for the traversal to drain its queue. -/
def bfsFuel (g : GraphA) (start : String) : Nat :=
  (start :: nodesOf g).length * (totalValLen g + 1) + 2

/-- The graph/rebuild-relevant state of the manager used by its query
surface. -/
structure HmrState where
  rebuildMode : RebuildMode
  allFiles : List String
  dependencyGraph : GraphA
  reverseDependencyGraph : GraphA

/-- HmrManager.getFilesToRebuild: in `'all'` mode the existing tracked
files; otherwise the BFS above started at the normalized changed file. -/
def getFilesToRebuild (st : HmrState) (fsx : String → Bool)
    (changedFile : String) : List String :=
  if st.rebuildMode = RebuildMode.all then
    (st.allFiles.filter fsx).foldl insertS []
  else
    (bfsAux fsx st.reverseDependencyGraph
      (bfsFuel st.reverseDependencyGraph (norm changedFile))
      [norm changedFile] [] []).2

/-- Reverse-dependency reachability: the changed file itself, plus
everything that directly or transitively imports it. -/
inductive ReachRev (g : GraphA) (a : String) : String → Prop where
  | refl : ReachRev g a a
  | tail {b c : String} : ReachRev g a b → c ∈ depsOf g b → ReachRev g a c

theorem bfsAux_nodup (fsx : String → Bool) (g : GraphA) :
    ∀ (fuel : Nat) (q v a : List String), a.Nodup →
      ((bfsAux fsx g fuel q v a).2).Nodup := by
  intro fuel
  induction fuel with
  | zero =>
    intro q v a ha
    simpa [bfsAux] using ha
  | succ fuel ih =>
    intro q v a ha
    cases q with
    | nil => simpa [bfsAux] using ha
    | cons c queue =>
      by_cases hv : c ∈ v
      · simp only [bfsAux, if_pos hv]
        exact ih _ _ _ ha
      · simp only [bfsAux, if_neg hv]
        apply ih
        by_cases hc : fsx c = true
        · rw [if_pos hc]
          exact insertS_nodup ha c
        · rw [if_neg hc]
          exact ha

theorem bfsAux_sound (fsx : String → Bool) (g : GraphA) (P : String → Prop)
    (hstep : ∀ y z : String, P y → z ∈ (depsOf g y).filter fsx → P z) :
    ∀ (fuel : Nat) (q v a : List String),
      (∀ x ∈ q, P x) → (∀ x ∈ a, P x) →
      ∀ x ∈ (bfsAux fsx g fuel q v a).2, P x := by
  intro fuel
  induction fuel with
  | zero =>
    intro q v a hq ha x hx
    exact ha x (by simpa [bfsAux] using hx)
  | succ fuel ih =>
    intro q v a hq ha x hx
    cases q with
    | nil => exact ha x (by simpa [bfsAux] using hx)
    | cons c queue =>
      by_cases hv : c ∈ v
      · simp only [bfsAux, if_pos hv] at hx
        exact ih _ _ _ (fun y hy => hq y (List.mem_cons_of_mem c hy)) ha x hx
      · simp only [bfsAux, if_neg hv] at hx
        refine ih _ _ _ ?_ ?_ x hx
        · intro y hy
          rcases List.mem_append.mp hy with h | h
          · exact hq y (List.mem_cons_of_mem c h)
          · exact hstep c y (hq c (List.mem_cons_self c queue)) h
        · intro y hy
          by_cases hc : fsx c = true
          · rw [if_pos hc] at hy
            rcases mem_insertS.mp hy with h | rfl
            · exact ha y h
            · exact hq y (List.mem_cons_self y queue)
          · rw [if_neg hc] at hy
            exact ha y hy

theorem bfsAux_closure (fsx : String → Bool) (g : GraphA) (u : List String)
    (K : Nat)
    (hK : ∀ c : String, ((depsOf g c).filter fsx).length + 1 ≤ K)
    (hdeps : ∀ c z : String, z ∈ (depsOf g c).filter fsx → z ∈ u) :
    ∀ (fuel : Nat) (q v a : List String),
      unvisitedCount u v * K + q.length < fuel →
      (∀ x ∈ q, x ∈ u) →
      (∀ y ∈ v, ∀ z ∈ (depsOf g y).filter fsx, z ∈ v ∨ z ∈ q) →
      (∀ x : String, x ∈ a ↔ x ∈ v ∧ fsx x = true) →
      (∀ x ∈ q, x ∈ (bfsAux fsx g fuel q v a).1) ∧
      (∀ x ∈ v, x ∈ (bfsAux fsx g fuel q v a).1) ∧
      (∀ y ∈ (bfsAux fsx g fuel q v a).1,
        ∀ z ∈ (depsOf g y).filter fsx, z ∈ (bfsAux fsx g fuel q v a).1) ∧
      (∀ x : String, x ∈ (bfsAux fsx g fuel q v a).2 ↔
        x ∈ (bfsAux fsx g fuel q v a).1 ∧ fsx x = true) := by
  intro fuel
  induction fuel with
  | zero =>
    intro q v a hm hq hcl hacc
    exact absurd hm (Nat.not_lt_zero _)
  | succ fuel ih =>
    intro q v a hm hq hcl hacc
    cases q with
    | nil =>
      have hres : bfsAux fsx g (fuel + 1) [] v a = (v, a) := by
        simp [bfsAux]
      rw [hres]
      refine ⟨?_, ?_, ?_, ?_⟩
      · intro x hx
        simp at hx
      · intro x hx
        exact hx
      · intro y hy z hz
        rcases hcl y hy z hz with h | h
        · exact h
        · simp at h
      · exact hacc
    | cons c queue =>
      by_cases hv : c ∈ v
      · have hm' : unvisitedCount u v * K + queue.length < fuel := by
          simp only [List.length_cons] at hm
          omega
        have hq' : ∀ x ∈ queue, x ∈ u :=
          fun x hx => hq x (List.mem_cons_of_mem c hx)
        have hcl' : ∀ y ∈ v, ∀ z ∈ (depsOf g y).filter fsx,
            z ∈ v ∨ z ∈ queue := by
          intro y hy z hz
          rcases hcl y hy z hz with h | h
          · exact Or.inl h
          · rcases List.mem_cons.mp h with rfl | h2
            · exact Or.inl hv
            · exact Or.inr h2
        obtain ⟨c1, c2, c3, c4⟩ := ih queue v a hm' hq' hcl' hacc
        have hres : bfsAux fsx g (fuel + 1) (c :: queue) v a
            = bfsAux fsx g fuel queue v a := by
          simp [bfsAux, hv]
        rw [hres]
        refine ⟨?_, c2, c3, c4⟩
        intro x hx
        rcases List.mem_cons.mp hx with rfl | h2
        · exact c2 x hv
        · exact c1 x h2
      · have hcu : c ∈ u := hq c (List.mem_cons_self c queue)
        have hlt := unvisitedCount_cons_lt hcu hv
        have hdlen := hK c
        have hm' : unvisitedCount u (c :: v) * K
            + (queue ++ (depsOf g c).filter fsx).length < fuel := by
          have h2 : unvisitedCount u (c :: v) * K + K
              ≤ unvisitedCount u v * K := by
            have h3 := Nat.mul_le_mul_right K hlt
            rw [Nat.succ_mul] at h3
            exact h3
          simp only [List.length_append, List.length_cons] at hm ⊢
          omega
        have hq' : ∀ x ∈ queue ++ (depsOf g c).filter fsx, x ∈ u := by
          intro x hx
          rcases List.mem_append.mp hx with h | h
          · exact hq x (List.mem_cons_of_mem c h)
          · exact hdeps c x h
        have hcl' : ∀ y ∈ c :: v, ∀ z ∈ (depsOf g y).filter fsx,
            z ∈ c :: v ∨ z ∈ queue ++ (depsOf g c).filter fsx := by
          intro y hy z hz
          rcases List.mem_cons.mp hy with rfl | hyv
          · exact Or.inr (List.mem_append_right _ hz)
          · rcases hcl y hyv z hz with h | h
            · exact Or.inl (List.mem_cons_of_mem _ h)
            · rcases List.mem_cons.mp h with rfl | h2
              · exact Or.inl (List.mem_cons_self _ _)
              · exact Or.inr (List.mem_append_left _ h2)
        have hacc' : ∀ x : String, x ∈ (if fsx c then insertS a c else a) ↔
            x ∈ c :: v ∧ fsx x = true := by
          intro x
          by_cases hc : fsx c = true
          · rw [if_pos hc, mem_insertS]
            constructor
            · rintro (h | rfl)
              · have h2 := (hacc x).mp h
                exact ⟨List.mem_cons_of_mem c h2.1, h2.2⟩
              · exact ⟨List.mem_cons_self _ _, hc⟩
            · rintro ⟨hm2, hfx⟩
              rcases List.mem_cons.mp hm2 with rfl | h2
              · exact Or.inr rfl
              · exact Or.inl ((hacc x).mpr ⟨h2, hfx⟩)
          · rw [if_neg hc]
            constructor
            · intro h
              have h2 := (hacc x).mp h
              exact ⟨List.mem_cons_of_mem c h2.1, h2.2⟩
            · rintro ⟨hm2, hfx⟩
              rcases List.mem_cons.mp hm2 with rfl | h2
              · exact absurd hfx hc
              · exact (hacc x).mpr ⟨h2, hfx⟩
        obtain ⟨c1, c2, c3, c4⟩ := ih _ _ _ hm' hq' hcl' hacc'
        have hres : bfsAux fsx g (fuel + 1) (c :: queue) v a
            = bfsAux fsx g fuel (queue ++ (depsOf g c).filter fsx) (c :: v)
                (if fsx c then insertS a c else a) := by
          simp [bfsAux, hv]
        rw [hres]
        refine ⟨?_, ?_, c3, c4⟩
        · intro x hx
          rcases List.mem_cons.mp hx with rfl | h2
          · exact c2 x (List.mem_cons_self _ _)
          · exact c1 x (List.mem_append_left _ h2)
        · intro x hx
          exact c2 x (List.mem_cons_of_mem c hx)

/-- C9: in selective mode, the fuelled embedding of the BFS drains its
queue within the chosen bound for every finite reverse-dependency graph —
cycles included, thanks to the visited-set guard — and (when every file
exists on disk, so that the existence filters keep everything) returns
exactly the changed file together with every file that directly or
transitively imports it; the returned rebuild set is duplicate-free, so
each file is rebuilt once. -/
theorem getFilesToRebuild_selective_closure (st : HmrState)
    (fsx : String → Bool) (changedFile : String)
    (hmode : st.rebuildMode = RebuildMode.selective)
    (hfsx : ∀ p : String, fsx p = true) :
    (∀ x : String, x ∈ getFilesToRebuild st fsx changedFile ↔
      ReachRev st.reverseDependencyGraph (norm changedFile) x) ∧
    (getFilesToRebuild st fsx changedFile).Nodup := by
  have hmode' : ¬ st.rebuildMode = RebuildMode.all := by
    rw [hmode]
    intro h
    cases h
  unfold getFilesToRebuild
  rw [if_neg hmode']
  have hK : ∀ c : String,
      ((depsOf st.reverseDependencyGraph c).filter fsx).length + 1
        ≤ totalValLen st.reverseDependencyGraph + 1 := by
    intro c
    have h1 := List.length_filter_le fsx (depsOf st.reverseDependencyGraph c)
    have h2 := depsOf_length_le st.reverseDependencyGraph c
    omega
  have hdeps : ∀ c z : String,
      z ∈ (depsOf st.reverseDependencyGraph c).filter fsx →
      z ∈ norm changedFile :: nodesOf st.reverseDependencyGraph := by
    intro c z hz
    exact List.mem_cons_of_mem _ (depsOf_subset_nodesOf (List.mem_of_mem_filter hz))
  have hm : unvisitedCount
        (norm changedFile :: nodesOf st.reverseDependencyGraph) []
        * (totalValLen st.reverseDependencyGraph + 1)
        + ([norm changedFile] : List String).length
      < bfsFuel st.reverseDependencyGraph (norm changedFile) := by
    rw [unvisitedCount_nil]
    simp only [bfsFuel, List.length_singleton]
    omega
  have hq : ∀ x ∈ ([norm changedFile] : List String),
      x ∈ norm changedFile :: nodesOf st.reverseDependencyGraph := by
    intro x hx
    rcases List.mem_singleton.mp hx with rfl
    exact List.mem_cons_self _ _
  have hcl : ∀ y ∈ ([] : List String),
      ∀ z ∈ (depsOf st.reverseDependencyGraph y).filter fsx,
      z ∈ ([] : List String) ∨ z ∈ ([norm changedFile] : List String) := by
    intro y hy
    simp at hy
  have hacc : ∀ x : String, x ∈ ([] : List String) ↔
      x ∈ ([] : List String) ∧ fsx x = true := by
    simp
  obtain ⟨c1, c2, c3, c4⟩ := bfsAux_closure fsx st.reverseDependencyGraph
    (norm changedFile :: nodesOf st.reverseDependencyGraph)
    (totalValLen st.reverseDependencyGraph + 1) hK hdeps
    (bfsFuel st.reverseDependencyGraph (norm changedFile))
    [norm changedFile] [] [] hm hq hcl hacc
  constructor
  · intro x
    constructor
    · intro hx
      refine bfsAux_sound fsx st.reverseDependencyGraph
        (ReachRev st.reverseDependencyGraph (norm changedFile))
        ?_ _ _ _ _ ?_ ?_ x hx
      · intro y z hy hz
        exact ReachRev.tail hy (List.mem_of_mem_filter hz)
      · intro y hy
        rcases List.mem_singleton.mp hy with rfl
        exact ReachRev.refl
      · intro y hy
        simp at hy
    · intro hr
      have hx1 : x ∈ (bfsAux fsx st.reverseDependencyGraph
          (bfsFuel st.reverseDependencyGraph (norm changedFile))
          [norm changedFile] [] []).1 := by
        induction hr with
        | refl => exact c1 _ (List.mem_singleton_self _)
        | tail hab hmem ih =>
          exact c3 _ ih _ (List.mem_filter.mpr ⟨hmem, hfsx _⟩)
      exact (c4 x).mpr ⟨hx1, hfsx x⟩
  · exact bfsAux_nodup fsx st.reverseDependencyGraph _ _ _ _ List.nodup_nil

/-- Witness for C9 on a concrete two-node import cycle `a ↔ b`. -/
theorem getFilesToRebuild_selective_closure_witness :
    ("b" ∈ getFilesToRebuild
        ⟨RebuildMode.selective, [], [], [("a", ["b"]), ("b", ["a"])]⟩
        (fun _ => true) "a" ↔
      ReachRev [("a", ["b"]), ("b", ["a"])] (norm "a") "b") ∧
    (getFilesToRebuild
        ⟨RebuildMode.selective, [], [], [("a", ["b"]), ("b", ["a"])]⟩
        (fun _ => true) "a").Nodup := by
  have h := getFilesToRebuild_selective_closure
    ⟨RebuildMode.selective, [], [], [("a", ["b"]), ("b", ["a"])]⟩
    (fun _ => true) "a" rfl (fun _ => rfl)
  exact ⟨h.1 "b", h.2⟩

theorem normChar_idem (c : Char) : normChar (normChar c) = normChar c := by
  unfold normChar
  by_cases h : c = '\\' <;> simp [h]

theorem norm_idem (p : String) : norm (norm p) = norm p := by
  show String.mk ((p.data.map normChar).map normChar)
      = String.mk (p.data.map normChar)
  rw [List.map_map]
  have hf : normChar ∘ normChar = normChar := by
    funext c
    exact normChar_idem c
  rw [hf]

/-- Result record of the public query `getDependencyInfo`. -/
structure DepInfo where
  dependencies : List String
  dependents : List String
  isTest : Bool
  isSource : Bool
  isCritical : Bool
  affectedTests : List String
deriving DecidableEq, Repr

/-- HmrManager.getAffectedTests: the transitive dependents of a source
file, filtered to existing test files. -/
def getAffectedTests (cfg : HmrConfig) (st : HmrState) (fsx : String → Bool)
    (sourceFile : String) : List String :=
  (getFilesToRebuild st fsx sourceFile).filter
    (fun f => isTestFile cfg f && fsx f)

/-- HmrManager.getDependencyInfo, translated field for field: absent graph
entries yield empty lists via `|| []`, the role flags come from the path
alone, and `affectedTests` is computed only for source files. -/
def getDependencyInfo (cfg : HmrConfig) (st : HmrState) (fsx : String → Bool)
    (filePath : String) : DepInfo :=
  let normalized := norm filePath
  { dependencies := (findG st.dependencyGraph normalized).getD []
    dependents := (findG st.reverseDependencyGraph normalized).getD []
    isTest := isTestFile cfg normalized
    isSource := isSourceFile cfg normalized
    isCritical := isCriticalSourceFile cfg normalized
    affectedTests :=
      if isSourceFile cfg normalized then
        getAffectedTests cfg st fsx normalized
      else [] }

/-- C10 counterexample: the `isCritical` flag is NOT computed purely from
the path's prefix against the configured test/source roots — two
configurations sharing both roots but differing in critical patterns give
different `isCritical` for the same untracked path (the matcher used is
literal comparison, which agrees with `picomatch` on every pair
evaluated here). -/
theorem getDependencyInfo_isCritical_uses_patterns :
    (getDependencyInfo
        ⟨"test/", "src/", .smart, defaultCriticalSourcePatterns,
          fun s pat => s = pat⟩
        ⟨RebuildMode.selective, [], [], []⟩ (fun _ => true)
        "src/a.ts").isCritical = false ∧
    (getDependencyInfo
        ⟨"test/", "src/", .smart, defaultCriticalSourcePatterns ++ ["src/a.ts"],
          fun s pat => s = pat⟩
        ⟨RebuildMode.selective, [], [], []⟩ (fun _ => true)
        "src/a.ts").isCritical = true := by
  constructor
  · rfl
  · rfl

/-- C10 amended: `getDependencyInfo` is total — the embedding is a total
function of every input — and for a path with no entry in the graphs the
dependency and dependent lists are empty, while the `isTest`/`isSource`
flags are the prefix checks of the normalized path against the configured
roots and `isCritical` is the source-prefix check combined with the
critical-pattern match; all three flags are independent of the graph
state and the filesystem. -/
theorem getDependencyInfo_total (cfg : HmrConfig) (st st' : HmrState)
    (fsx fsx' : String → Bool) (filePath : String) :
    ((findG st.dependencyGraph (norm filePath) = none →
      (getDependencyInfo cfg st fsx filePath).dependencies = []) ∧
     (findG st.reverseDependencyGraph (norm filePath) = none →
      (getDependencyInfo cfg st fsx filePath).dependents = [])) ∧
    ((getDependencyInfo cfg st fsx filePath).isTest
        = startsWithS (norm filePath) cfg.testDir ∧
     (getDependencyInfo cfg st fsx filePath).isSource
        = startsWithS (norm filePath) cfg.srcDir ∧
     (getDependencyInfo cfg st fsx filePath).isCritical
        = (startsWithS (norm filePath) cfg.srcDir
            && cfg.criticalSourcePatterns.any
                (fun pat => cfg.patMatch (norm filePath) pat))) ∧
    ((getDependencyInfo cfg st fsx filePath).isTest
        = (getDependencyInfo cfg st' fsx' filePath).isTest ∧
     (getDependencyInfo cfg st fsx filePath).isSource
        = (getDependencyInfo cfg st' fsx' filePath).isSource ∧
     (getDependencyInfo cfg st fsx filePath).isCritical
        = (getDependencyInfo cfg st' fsx' filePath).isCritical) := by
  refine ⟨⟨?_, ?_⟩, ⟨?_, ?_, ?_⟩, ⟨rfl, rfl, rfl⟩⟩
  · intro h
    simp [getDependencyInfo, h]
  · intro h
    simp [getDependencyInfo, h]
  · show isTestFile cfg (norm filePath) = _
    unfold isTestFile
    rw [norm_idem]
  · show isSourceFile cfg (norm filePath) = _
    unfold isSourceFile
    rw [norm_idem]
  · show isCriticalSourceFile cfg (norm filePath) = _
    unfold isCriticalSourceFile
    by_cases hsrc : isSourceFile cfg (norm filePath) = true
    · rw [if_neg (by simp [hsrc])]
      have hs : startsWithS (norm filePath) cfg.srcDir = true := by
        unfold isSourceFile at hsrc
        rwa [norm_idem] at hsrc
      rw [hs]
      simp only [Bool.true_and]
      congr 1
      funext pat
      rw [norm_idem]
    · rw [if_pos (by simpa using hsrc)]
      have hs : startsWithS (norm filePath) cfg.srcDir = false := by
        unfold isSourceFile at hsrc
        rw [norm_idem] at hsrc
        simpa using hsrc
      rw [hs]
      simp

/-- Witness for the amended C10 at an untracked concrete path. -/
theorem getDependencyInfo_total_witness :
    (getDependencyInfo
        ⟨"test/", "src/", .smart, defaultCriticalSourcePatterns,
          fun s pat => s = pat⟩
        ⟨RebuildMode.selective, [], [], []⟩ (fun _ => true)
        "other/untracked.ts").dependencies = [] ∧
    (getDependencyInfo
        ⟨"test/", "src/", .smart, defaultCriticalSourcePatterns,
          fun s pat => s = pat⟩
        ⟨RebuildMode.selective, [], [], []⟩ (fun _ => true)
        "other/untracked.ts").dependents = [] ∧
    (getDependencyInfo
        ⟨"test/", "src/", .smart, defaultCriticalSourcePatterns,
          fun s pat => s = pat⟩
        ⟨RebuildMode.selective, [], [], []⟩ (fun _ => true)
        "other/untracked.ts").isTest = false := by
  have h := getDependencyInfo_total
    ⟨"test/", "src/", .smart, defaultCriticalSourcePatterns,
      fun s pat => s = pat⟩
    ⟨RebuildMode.selective, [], [], []⟩
    ⟨RebuildMode.all, ["x"], [("k", ["v"])], []⟩
    (fun _ => true) (fun _ => false) "other/untracked.ts"
  refine ⟨h.1.1 rfl, h.1.2 rfl, ?_⟩
  rw [h.2.1.1]
  decide
